import Mathlib

/-!
Shallow embedding of the Connect 4 engine in `src/prova.py`.

A board is a list of `NUM_COLUMNS` columns, each a list of `COLUMN_HEIGHT`
cells ordered bottom-up (index 0 is the bottom cell), holding `0` (empty),
`1` (player A) or `-1` (player B) — exactly the NumPy array `board[col, row]`
of the source.  Partial source operations (` play` on a full column,
`take_back` on an empty column, which raise in Python) are modelled as
returning the board unchanged on those inputs; every theorem below only uses
them inside their preconditions.  NumPy's random draws are modelled by an
oracle `rand : Nat → Nat`, consumed at an explicit cursor `k`; a draw from a
nonempty list `l` picks index `rand k % l.length`.  All theorems quantify
over every oracle, so they cover every concrete random sequence.
-/

namespace Connect4

abbrev Board := List (List Int)

def NUM_COLUMNS : Nat := 7
def COLUMN_HEIGHT : Nat := 6
def FOUR : Nat := 4
def MAX_ROUNDS : Nat := NUM_COLUMNS * COLUMN_HEIGHT
def NUM_ITERATIONS : Nat := 1000
def MC_ITERATIONS : Nat := 20
def SEARCH_ORDER : List Nat := [3, 2, 4, 1, 5, 0, 6]

/-- `board[c, r]` of the source (out-of-range reads as empty; reachable code
never reads out of range). -/
def cell (b : Board) (c r : Nat) : Int := (b.getD c []).getD r 0

/-- `valid_moves` of the source: columns whose top cell is empty. -/
def valid_moves (b : Board) : List Nat :=
  (List.range NUM_COLUMNS).filter fun n => cell b n (COLUMN_HEIGHT - 1) == 0

/-- Replace the lowest empty cell of a column with `p` (the generator
`next(i for i, v in enumerate(board[column]) if v == 0)` of `play`). -/
def playCol (p : Int) : List Int → List Int
  | [] => []
  | x :: xs => if x = 0 then p :: xs else x :: playCol p xs

/-- `play` of the source: drop a disc of `player` into `column`. -/
def play (b : Board) (column : Nat) (player : Int) : Board :=
  b.set column (playCol player (b.getD column []))

/-- Clear the topmost occupied cell of a column (the `[-1]` of the nonzero
indices in `take_back`). -/
def takeBackCol : List Int → List Int
  | [] => []
  | x :: xs =>
    if xs.any (fun v => v != 0) then x :: takeBackCol xs
    else if x != 0 then 0 :: xs else x :: xs

/-- `take_back` of the source: remove the top disc from `column`. -/
def take_back (b : Board) (column : Nat) : Board :=
  b.set column (takeBackCol (b.getD column []))

/-- `four_in_a_row` of the source: the four orientation scans, with the same
index ranges. -/
def four_in_a_row (b : Board) (player : Int) : Bool :=
  ((List.range NUM_COLUMNS).any fun c =>
    (List.range (COLUMN_HEIGHT - FOUR + 1)).any fun n =>
      (List.range FOUR).all fun j => cell b c (n + j) == player)
  || ((List.range COLUMN_HEIGHT).any fun r =>
    (List.range (NUM_COLUMNS - FOUR + 1)).any fun n =>
      (List.range FOUR).all fun j => cell b (n + j) r == player)
  || ((List.range (NUM_COLUMNS - FOUR + 1)).any fun ro =>
    (List.range (COLUMN_HEIGHT - FOUR + 1)).any fun co =>
      (List.range FOUR).all fun j => cell b (ro + j) (co + j) == player)
  || ((List.range (NUM_COLUMNS - FOUR + 1)).any fun ro =>
    (List.range (COLUMN_HEIGHT - FOUR + 1)).any fun co =>
      (List.range FOUR).all fun j => cell b (ro + j) (co + FOUR - 1 - j) == player)

/-- `round_number` of the source: `np.count_nonzero(board)`. -/
def round_number (b : Board) : Nat :=
  (b.map fun col => col.countP fun v => v != 0).sum

/-- `board.any()` of the source: some cell is nonzero. -/
def boardAny (b : Board) : Bool :=
  b.any fun col => col.any fun v => v != 0

/-- `terminal_state` of the source: `some 0` = draw, `some 1` / `some (-1)` =
win, `none` = non-terminal.  Fullness is checked first. -/
def terminal_state (b : Board) : Option Int :=
  if round_number b = MAX_ROUNDS then some 0
  else if four_in_a_row b 1 then some 1
  else if four_in_a_row b (-1) then some (-1)
  else none

/-- Shape well-formedness: 7 columns of 6 cells (the fixed NumPy shape). -/
def wf (b : Board) : Bool :=
  b.length == NUM_COLUMNS && b.all fun col => col.length == COLUMN_HEIGHT

/-- Gravity for one column: above the lowest empty cell everything is empty. -/
def gravityCol (col : List Int) : Bool :=
  (col.dropWhile fun v => v != 0).all fun v => v == 0

/-- Gravity invariant of the data model. -/
def gravityB (b : Board) : Bool := b.all gravityCol

/-! ### Monte Carlo evaluator (`_mc`, `montecarlo`) -/

/-- One random draw from a nonempty list: index `rand k % l.length`. -/
def draw (rand : Nat → Nat) (k : Nat) (l : List Nat) : Nat :=
  l.getD (rand k % l.length) 0

/-- The `while valid_moves(board)` loop of `_mc`, with `fuel` bounding the
number of plies (the board fills up within `MAX_ROUNDS` plies, so any
`fuel > MAX_ROUNDS` reaches the real exit).  Besides the winner the model
also returns the list of `(column, mover)` pairs in play order — a pure
observation of the calls to `play`, used to state which side moves — and the
final oracle cursor. -/
def mcLoop (rand : Nat → Nat) : Nat → Nat → Board → Int → Int × List (Nat × Int) × Nat
  | 0, k, _, _ => (0, [], k)
  | fuel + 1, k, b, p =>
    if valid_moves b = [] then (0, [], k)
    else
      let p' := -p
      let c := draw rand k (valid_moves b)
      let b' := play b c p'
      if four_in_a_row b' p' then (p', [(c, p')], k + 1)
      else
        let r := mcLoop rand fuel (k + 1) b' p'
        (r.1, (c, p') :: r.2.1, r.2.2)

/-- `_mc` of the source: a single random playout.  Note the source sets
`p = -player` and then flips `p` at the top of the loop, so the first disc is
dropped by `player` itself. -/
def _mc (rand : Nat → Nat) (fuel : Nat) (b : Board) (player : Int) :
    Int × List (Nat × Int) × Nat :=
  mcLoop rand fuel 0 b (-player)

/-- `montecarlo` of the source: 100 independent playouts (oracle `rands i`
for the i-th sample), scored `(cnt[1] - cnt[-1]) / montecarlo_samples`. -/
def montecarlo (rands : Nat → Nat → Nat) (b : Board) (player : Int) : ℚ :=
  let montecarlo_samples := 100
  let results :=
    (List.range montecarlo_samples).map fun i => (_mc (rands i) (MAX_ROUNDS + 1) b player).1
  (((results.count 1 : Int) - (results.count (-1) : Int) : Int) : ℚ) / montecarlo_samples

/-! ### MCTS (`Node`, `MCTS`) -/

/-- `Node` of the source: board snapshot, the player who made the move that
produced this position, that move, the visit/win statistics, the child list
and the untried moves.  The parent back-pointer of the source is not stored:
backpropagation is performed on the way back up the functional recursion of
`iterate1`, which walks exactly the same path. -/
inductive Tree : Type where
  | mk : Board → Int → Option Nat → Nat → ℚ → List Tree → List Nat → Tree

instance : Inhabited Tree := ⟨.mk [] 0 none 0 0 [] []⟩

def Tree.board : Tree → Board | .mk b _ _ _ _ _ _ => b
def Tree.player : Tree → Int | .mk _ p _ _ _ _ _ => p
def Tree.move : Tree → Option Nat | .mk _ _ m _ _ _ _ => m
def Tree.num_visits : Tree → Nat | .mk _ _ _ v _ _ _ => v
def Tree.num_wins : Tree → ℚ | .mk _ _ _ _ w _ _ => w
def Tree.childs : Tree → List Tree | .mk _ _ _ _ _ c _ => c
def Tree.next_moves : Tree → List Nat | .mk _ _ _ _ _ _ n => n

/-- The increment `backpropagate` adds to `num_wins` at a node whose player
is `player` when the rollout winner is `winner` (`+1` for a win, `+0.5` for a
draw, `0` otherwise). -/
def reward (winner player : Int) : ℚ :=
  if winner = 0 then 1/2 else if winner = player then 1 else 0

/-- Fuel bound used for random rollouts: a rollout plays at most
`MAX_ROUNDS` discs. -/
def SIM_FUEL : Nat := MAX_ROUNDS + 1

/-- `Node.simulate` of the source: random playout from board `b`, the first
disc dropped by `p`, alternating after each ply, until a four-in-a-row or a
full board (draw `0`).  Returns the winner and the final oracle cursor. -/
def simulateLoop (rand : Nat → Nat) : Nat → Nat → Board → Int → Int × Nat
  | 0, k, _, _ => (0, k)
  | fuel + 1, k, b, p =>
    if valid_moves b = [] then (0, k)
    else
      let m := draw rand k (valid_moves b)
      let b' := play b m p
      if four_in_a_row b' p then (p, k + 1)
      else simulateLoop rand fuel (k + 1) b' (-p)

/-- One MCTS iteration (the body of the `for` loop of `MCTS`): selection
descends while the node is fully expanded and has children, then expansion,
rollout and backpropagation.  The selection step picks the child maximising
the float-valued UCB1 formula in the source; floating point does not embed,
so the selected index is over-approximated by an oracle draw
(`rand k % childs.length`) — every theorem below quantifies over all oracles
and therefore covers the index the float comparison actually picks.
Returns the updated (sub)tree, the rollout winner, and the oracle cursor. -/
def iterate1 (rand : Nat → Nat) : Tree → Nat → Tree × Int × Nat
  | .mk b p mv v w childs nms, k =>
    if h : 0 < childs.length ∧ nms = [] then
      -- SELECTION: descend into a child, then backpropagate into this node
      let i := rand k % childs.length
      let c := childs.get ⟨i, Nat.mod_lt _ h.1⟩
      let r := iterate1 rand c (k + 1)
      (.mk b p mv (v + 1) (w + reward r.2.1 p) (childs.set i r.1) nms, r.2)
    else if h2 : nms ≠ [] then
      -- EXPANSION of a random untried move, then rollout and backpropagation
      let m := nms.get ⟨rand k % nms.length, Nat.mod_lt _ (List.length_pos.mpr h2)⟩
      let player := -p
      let nb := play b m player
      let wk : Int × Nat :=
        match terminal_state nb with
        | some wr => (wr, k + 1)
        | none => simulateLoop rand SIM_FUEL (k + 1) nb (-player)
      let child : Tree := .mk nb player (some m) 1 (reward wk.1 player) [] (valid_moves nb)
      (.mk b p mv (v + 1) (w + reward wk.1 p) (childs ++ [child]) (nms.erase m), wk)
    else
      -- node with no untried move and no child: rollout from here
      let wk : Int × Nat :=
        match terminal_state b with
        | some wr => (wr, k)
        | none => simulateLoop rand SIM_FUEL k b (-p)
      (.mk b p mv (v + 1) (w + reward wk.1 p) childs nms, wk)
  termination_by t _ => sizeOf t
  decreasing_by
    have h1 : ∀ idx : Fin childs.length, sizeOf (childs.get idx) < sizeOf childs :=
      fun idx => List.sizeOf_lt_of_mem (childs.get_mem _ _)
    have h2 := h1 ⟨rand k % childs.length, Nat.mod_lt _ h.1⟩
    simp only [Tree.mk.sizeOf_spec]
    omega

/-- Python's `max(xs, key=f)` (first maximal element), `none` on an empty
list — where CPython raises `ValueError`. -/
def pyMax {α : Type} (f : α → ℚ) : List α → Option α
  | [] => none
  | x :: xs => some (xs.foldl (fun acc y => if f y > f acc then y else acc) x)

/-- The iteration loop of `MCTS`: `n` iterations from tree `t`. -/
def MCTSloop (rand : Nat → Nat) : Nat → Tree → Nat → Tree × Nat
  | 0, t, k => (t, k)
  | n + 1, t, k =>
    let r := iterate1 rand t k
    MCTSloop rand n r.1 r.2.2

/-- The search tree `MCTS` has built when its iteration budget is spent:
root recorded with player `-player` and untried moves `valid_moves b`. -/
def MCTSTree (rand : Nat → Nat) (b : Board) (player : Int) (n : Nat) : Tree × Nat :=
  MCTSloop rand n (.mk b (-player) none 0 0 [] (valid_moves b)) 0

/-- `MCTS` of the source: run the iterations, then return the move of the
root child with the highest raw win rate.  `none` models the `ValueError`
CPython raises when `max` is applied to an empty child list. -/
def MCTS (rand : Nat → Nat) (b : Board) (player : Int) (n : Nat) : Option Nat :=
  match pyMax (fun c => c.num_wins / (c.num_visits : ℚ)) (MCTSTree rand b player n).1.childs with
  | some best => best.move
  | none => none

/-! ### Alpha-beta minimax (`can_win_next_move`, `mc_simulation`, `minimax`) -/

def MAX_DEPTH : Int := 3

/-- Python truthiness of the `score` local in `can_win_next_move` / `minimax`
(`None` and `0` are falsy). -/
def truthy : Option Int → Bool
  | none => false
  | some s => s != 0

/-- The value a win at round count `round_num` scores:
`(MAX_ROUNDS - (round_num - 1)) // 2` on Python ints. -/
def winScore (round_num : Nat) : Int :=
  ((MAX_ROUNDS : Int) - ((round_num : Int) - 1)) / 2

/-- The `for m in moves` loop of `can_win_next_move`: trial-play each move,
score it if it completes a four-in-a-row, take it back, and return on a
truthy score.  The board is threaded to mirror the in-place mutation. -/
def can_win_loop (player : Int) (round_num : Nat) :
    List Nat → Board → (Option Int × Option Nat) × Board
  | [], b => ((none, none), b)
  | m :: ms, b =>
    let b1 := play b m player
    let score : Option Int :=
      if four_in_a_row b1 player then some (winScore round_num) else none
    let b2 := take_back b1 m
    if truthy score then ((score, some m), b2)
    else can_win_loop player round_num ms b2

/-- `can_win_next_move` of the source (with `moves` and `round_num` supplied
by the caller, as `minimax` does). -/
def can_win_next_move (b : Board) (player : Int) (moves : List Nat) (round_num : Nat) :
    (Option Int × Option Nat) × Board :=
  can_win_loop player round_num moves b

/-- The inner `while True` loop of `mc_simulation`: plays `tmp_move` with
`tmp_player`, stops on a full board (0) or a four-in-a-row (signed win
score), otherwise draws the next random move and flips the player.  The
loop runs on a copy, so only the score and cursor are returned. -/
def mcPlayoutLoop (rand : Nat → Nat) (player : Int) :
    Nat → Nat → Board → Int → Nat → Int × Nat
  | 0, k, _, _, _ => (0, k)
  | fuel + 1, k, b, tmp_player, tmp_move =>
    let b' := play b tmp_move tmp_player
    if round_number b' = MAX_ROUNDS then (0, k)
    else if four_in_a_row b' tmp_player then
      (if tmp_player = player then winScore (round_number b') else -winScore (round_number b'), k)
    else
      let m' := draw rand k (valid_moves b')
      mcPlayoutLoop rand player fuel (k + 1) b' (-tmp_player) m'

/-- The `for _ in range(MC_ITERATIONS)` loop of `mc_simulation`, keeping the
best (score, first move) pair seen. -/
def mcSimLoop (rand : Nat → Nat) (b : Board) (player : Int) :
    Nat → Nat → Int → Option Nat → (Int × Option Nat) × Nat
  | 0, k, best_score, best_move => ((best_score, best_move), k)
  | i + 1, k, best_score, best_move =>
    let move := draw rand k (valid_moves b)
    let r := mcPlayoutLoop rand player SIM_FUEL (k + 1) b player move
    if r.1 > best_score then mcSimLoop rand b player i r.2 r.1 (some move)
    else mcSimLoop rand b player i r.2 best_score best_move

/-- `mc_simulation` of the source: 20 biased playouts, best pair kept,
starting from `best_score = -MAX_ROUNDS`, `best_move = None`. -/
def mc_simulation (rand : Nat → Nat) (k : Nat) (b : Board) (player : Int) :
    (Int × Option Nat) × Nat :=
  mcSimLoop rand b player MC_ITERATIONS k (-(MAX_ROUNDS : Int)) none

mutual

/-- `minimax` of the source (negamax with alpha-beta), with explicit `fuel`
bounding the recursion depth (the source recursion is finite: `depth` grows
by 1 per level and the search switches to `mc_simulation` once
`depth > max_depth`, so any `fuel` above that height reaches no fuel-out
branch).  Returns `((score, move), board, cursor)`; the board output mirrors
the in-place mutation of the caller's array. -/
def minimax (rand : Nat → Nat) (fuel : Nat) (k : Nat) (b : Board) (player : Int)
    (depth : Int) (alpha beta : Int) (max_depth : Int) : (Int × Option Nat) × Board × Nat :=
  match fuel with
  | 0 => ((0, none), b, k)
  | fuel' + 1 =>
    let round_num := round_number b
    if round_num = MAX_ROUNDS then ((0, none), b, k)
    else
      let moves := valid_moves b
      let cw := can_win_next_move b player moves round_num
      if truthy cw.1.1 then ((cw.1.1.getD 0, cw.1.2), cw.2, k)
      else
        let max_score : Int := ((MAX_ROUNDS : Int) - ((round_num : Int) + 1)) / 2
        let beta' := if beta > max_score then max_score else beta
        if alpha ≥ beta' then ((beta', none), cw.2, k)
        else if depth > max_depth then
          let r := mc_simulation rand k cw.2 player
          (r.1, cw.2, r.2)
        else
          mmLoop rand fuel' k SEARCH_ORDER moves cw.2 player depth alpha beta' none
  termination_by (fuel, 0)

/-- The `for m in SEARCH_ORDER` loop of `minimax`: `beta` is the clipped
bound, `alpha` and `best_move` the running state.  The recursive call passes
`max_depth = MAX_DEPTH`: the source omits the argument, so the default
applies at every inner level. -/
def mmLoop (rand : Nat → Nat) (fuel : Nat) (k : Nat) (order moves : List Nat) (b : Board)
    (player : Int) (depth : Int) (alpha beta : Int) (best_move : Option Nat) :
    (Int × Option Nat) × Board × Nat :=
  match order with
  | [] => ((alpha, best_move), b, k)
  | m :: rest =>
    if m ∈ moves then
      let b1 := play b m player
      let r := minimax rand fuel k b1 (-player) (depth + 1) (-beta) (-alpha) MAX_DEPTH
      let score := -r.1.1
      let b3 := take_back r.2.1 m
      let k' := r.2.2
      if score ≥ beta then ((score, some m), b3, k')
      else if score > alpha then mmLoop rand fuel k' rest moves b3 player depth score beta (some m)
      else mmLoop rand fuel k' rest moves b3 player depth alpha beta best_move
    else mmLoop rand fuel k rest moves b player depth alpha beta best_move
  termination_by (fuel, order.length + 1)

end

/-! ### Move selector (`choose_move`) -/

/-- Fuel passed to `minimax` by the model of `choose_move`: the source call
starts at `depth = 1` with `max_depth = 3`, so the recursion is at most 4
levels deep and fuel 5 never reaches a fuel-out branch. -/
def CHOOSE_FUEL : Nat := 5

/-- `choose_move` of the source.  `v = 1` selects MCTS, anything else the
minimax engine.  Result `.ok (move?, board')` returns the move (or `none`
for no legal move, the draw signal) together with the updated board;
`.error ()` models the uncaught `ValueError` that `max` raises inside `MCTS`
when the root has no children. -/
def choose_move (rand : Nat → Nat) (b : Board) (player : Int) (v : Int) :
    Except Unit (Option Nat × Board) :=
  if boardAny b = false ∨ round_number b = 1 then .ok (some 3, play b 3 player)
  else if round_number b = 2 then
    let move := [2, 3, 4].getD (rand 0 % 3) 0
    .ok (some move, play b move player)
  else if v = 1 then
    match MCTS rand b player NUM_ITERATIONS with
    | some m => .ok (some m, play b m player)
    | none => .error ()
  else
    let r := minimax rand CHOOSE_FUEL 0 b player 1 (-1000) 1000 MAX_DEPTH
    match r.1.2 with
    | some m => .ok (some m, play r.2.1 m player)
    | none => .ok (none, r.2.1)

/-! ### Concrete boards used as test inputs -/

/-- Column pattern `[1,1,1,-1,-1,-1]` (bottom-up). -/
def colA : List Int := [1, 1, 1, -1, -1, -1]

/-- Column pattern `[-1,-1,-1,1,1,1]` (bottom-up). -/
def colB : List Int := [-1, -1, -1, 1, 1, 1]

/-- A completely full board with no four-in-a-row for either player. -/
def fullDrawBoard : Board := [colA, colB, colA, colB, colA, colB, colA]

/-- A completely full board in which player 1 has a vertical four-in-a-row
in column 0. -/
def fullWinBoard : Board :=
  [[1, 1, 1, 1, -1, -1], colB, colA, colB, colA, colB, colA]

/-- A 41-disc board: `fullDrawBoard` with the top cell of column 6 empty.
Non-terminal, and column 6 is the single legal move. -/
def nearFullBoard : Board :=
  [colA, colB, colA, colB, colA, colB, [1, 1, 1, -1, -1, 0]]

def emptyCol : List Int := [0, 0, 0, 0, 0, 0]

/-- The empty board. -/
def emptyBoard : Board :=
  [emptyCol, emptyCol, emptyCol, emptyCol, emptyCol, emptyCol, emptyCol]

/-- An empty board with one disc of player 1 in column 3 (round 1). -/
def oneDiscBoard : Board :=
  [emptyCol, emptyCol, emptyCol, [1, 0, 0, 0, 0, 0], emptyCol, emptyCol, emptyCol]

/-- A round-2 board: discs of both players in column 3. -/
def twoDiscBoard : Board :=
  [emptyCol, emptyCol, emptyCol, [1, -1, 0, 0, 0, 0], emptyCol, emptyCol, emptyCol]

/-- A board on which player 1 wins at once by dropping into column 0
(three discs of player 1 stacked there, six discs on the board). -/
def winInOneBoard : Board :=
  [[1, 1, 1, 0, 0, 0], [-1, -1, 0, 0, 0, 0], [-1, 0, 0, 0, 0, 0],
   emptyCol, emptyCol, emptyCol, emptyCol]

/-- Invariant of the MCTS search tree: at every node
`0 <= num_wins <= num_visits`, and every child in the tree has been visited
at least once (so the `num_wins / num_visits` ratios of UCB1 and of the final
move choice never divide by zero). -/
inductive TreeInv : Tree → Prop where
  | mk : ∀ (b : Board) (p : Int) (mv : Option Nat) (v : Nat) (w : ℚ)
      (childs : List Tree) (nms : List Nat),
      0 ≤ w → w ≤ (v : ℚ) →
      (∀ c ∈ childs, 1 ≤ c.num_visits) →
      (∀ c ∈ childs, TreeInv c) →
      TreeInv (.mk b p mv v w childs nms)

/-- Root bookkeeping of `MCTS`: every child of the root carries a move drawn
from `S`, and the untried moves of the root are in `S` (instantiated with
`S = valid_moves b`). -/
def RootInv (S : List Nat) (t : Tree) : Prop :=
  (∀ c ∈ t.childs, ∃ m ∈ S, c.move = some m) ∧ (∀ m ∈ t.next_moves, m ∈ S)

/-! ## Lemmas about the board model -/

theorem playCol_length (p : Int) : ∀ col : List Int, (playCol p col).length = col.length
  | [] => rfl
  | x :: xs => by
    by_cases hx : x = 0 <;> simp [playCol, hx, playCol_length p xs]

theorem set_getD_self {α : Type} (d : α) :
    ∀ (l : List α) (i : Nat), i < l.length → l.set i (l.getD i d) = l
  | [], i, h => by simp at h
  | x :: xs, 0, _ => by simp
  | x :: xs, i + 1, h => by
    simp only [List.getD_cons_succ, List.set_cons_succ]
    rw [set_getD_self d xs i (by simpa using h)]

theorem all_zero_any_ne {xs : List Int} (h : xs.all (fun v => v == 0) = true) :
    xs.any (fun v => v != 0) = false := by
  simp only [List.all_eq_true, beq_iff_eq] at h
  simp only [List.any_eq_false, bne_iff_ne, ne_eq, not_not]
  exact h

theorem gravityCol_cons_zero {xs : List Int} (h : gravityCol (0 :: xs) = true) :
    xs.all (fun v => v == 0) = true := by
  unfold gravityCol at h
  rw [List.dropWhile_cons] at h
  simp only [bne_self_eq_false, if_false, List.all_cons] at h
  exact (Bool.and_eq_true ..).mp h |>.2

theorem gravityCol_cons_ne {x : Int} {xs : List Int} (hx : x ≠ 0)
    (h : gravityCol (x :: xs) = true) : gravityCol xs = true := by
  unfold gravityCol at h ⊢
  rw [List.dropWhile_cons, if_pos (by simpa using hx)] at h
  exact h

theorem playCol_any_ne (p : Int) (hp : p ≠ 0) :
    ∀ xs : List Int, 0 ∈ xs → (playCol p xs).any (fun v => v != 0) = true
  | [], hmem => absurd hmem (by simp)
  | x :: xs, _ => by
    by_cases hx : x = 0
    · simp [playCol, hx, hp]
    · simp [playCol, hx]

theorem playCol_cons_zero (p : Int) (xs : List Int) : playCol p (0 :: xs) = p :: xs := by
  simp [playCol]

theorem playCol_cons_ne (p : Int) {x : Int} (hx : x ≠ 0) (xs : List Int) :
    playCol p (x :: xs) = x :: playCol p xs := by
  simp [playCol, hx]

theorem takeBack_playCol (p : Int) (hp : p ≠ 0) :
    ∀ col : List Int, gravityCol col = true → 0 ∈ col →
      takeBackCol (playCol p col) = col
  | [], _, hmem => absurd hmem (by simp)
  | x :: xs, hg, hmem => by
    by_cases hx : x = 0
    · subst hx
      have hall := gravityCol_cons_zero hg
      rw [playCol_cons_zero]
      simp only [takeBackCol]
      rw [all_zero_any_ne hall]
      simp [hp]
    · have hg' := gravityCol_cons_ne hx hg
      have hmem' : 0 ∈ xs := by
        rcases List.mem_cons.mp hmem with h0 | h0
        · exact absurd h0.symm hx
        · exact h0
      rw [playCol_cons_ne p hx]
      simp only [takeBackCol]
      rw [playCol_any_ne p hp xs hmem']
      simp only [if_true]
      rw [takeBack_playCol p hp xs hg' hmem']

theorem dropWhile_all_zero {xs : List Int} (h : xs.all (fun v => v == 0) = true) :
    List.dropWhile (fun v => v != 0) xs = xs := by
  cases xs with
  | nil => rfl
  | cons y ys =>
    have hy : y = 0 := by
      simpa using (List.all_eq_true.mp h) y (List.mem_cons_self y ys)
    rw [List.dropWhile_cons, hy]
    simp

theorem gravityCol_all_zero {xs : List Int} (h : xs.all (fun v => v == 0) = true) :
    gravityCol xs = true := by
  unfold gravityCol
  rw [dropWhile_all_zero h]
  exact h

theorem gravityCol_playCol (p : Int) (hp : p ≠ 0) :
    ∀ col : List Int, gravityCol col = true → gravityCol (playCol p col) = true
  | [], _ => rfl
  | x :: xs, hg => by
    by_cases hx : x = 0
    · subst hx
      have hall := gravityCol_cons_zero hg
      rw [playCol_cons_zero]
      unfold gravityCol
      rw [List.dropWhile_cons, if_pos (by simpa using hp), dropWhile_all_zero hall]
      exact hall
    · have hg' := gravityCol_cons_ne hx hg
      rw [playCol_cons_ne p hx]
      unfold gravityCol
      rw [List.dropWhile_cons, if_pos (by simpa using hx)]
      exact gravityCol_playCol p hp xs hg'

theorem mem_valid_moves {b : Board} {c : Nat} :
    c ∈ valid_moves b ↔ c < NUM_COLUMNS ∧ cell b c (COLUMN_HEIGHT - 1) = 0 := by
  simp [valid_moves, List.mem_filter, List.mem_range]

theorem wf_length {b : Board} (h : wf b = true) : b.length = NUM_COLUMNS := by
  unfold wf at h
  exact by simpa using ((Bool.and_eq_true ..).mp h).1

theorem wf_col_length {b : Board} (h : wf b = true) {col : List Int} (hc : col ∈ b) :
    col.length = COLUMN_HEIGHT := by
  unfold wf at h
  have := ((Bool.and_eq_true ..).mp h).2
  simpa using (List.all_eq_true.mp this) col hc

theorem getD_mem {b : Board} {c : Nat} (h : c < b.length) : b.getD c [] ∈ b := by
  rw [List.getD_eq_getElem _ _ h]
  exact List.getElem_mem h

theorem zero_mem_top {b : Board} {c : Nat} (hw : wf b = true)
    (hc : c ∈ valid_moves b) : 0 ∈ b.getD c [] := by
  obtain ⟨hlt, htop⟩ := mem_valid_moves.mp hc
  have hclt : c < b.length := by rw [wf_length hw]; exact hlt
  have hlen : (b.getD c []).length = COLUMN_HEIGHT := wf_col_length hw (getD_mem hclt)
  have h5 : COLUMN_HEIGHT - 1 < (b.getD c []).length := by rw [hlen]; decide
  have : (b.getD c []).getD (COLUMN_HEIGHT - 1) 0 = 0 := htop
  rw [List.getD_eq_getElem _ _ h5] at this
  rw [← this]
  exact List.getElem_mem h5

theorem gravityB_col {b : Board} (hg : gravityB b = true) {col : List Int}
    (hc : col ∈ b) : gravityCol col = true :=
  (List.all_eq_true.mp hg) col hc

/-- `play` then `take_back` on the same column restores the board (the
column round trip, needing gravity, a legal column, and a nonzero player). -/
theorem play_take_back {b : Board} {c : Nat} {p : Int} (hw : wf b = true)
    (hg : gravityB b = true) (hc : c ∈ valid_moves b) (hp : p ≠ 0) :
    take_back (play b c p) c = b := by
  have hclt : c < b.length := by
    rw [wf_length hw]; exact (mem_valid_moves.mp hc).1
  have hcol := getD_mem hclt
  unfold play take_back
  have hset : (b.set c (playCol p (b.getD c []))).getD c [] = playCol p (b.getD c []) := by
    have hlt : c < (b.set c (playCol p (b.getD c []))).length := by
      rw [List.length_set]; exact hclt
    rw [List.getD_eq_getElem _ _ hlt]
    exact List.getElem_set_self hlt
  rw [hset, List.set_set,
    takeBack_playCol p hp _ (gravityB_col hg hcol) (zero_mem_top hw hc),
    set_getD_self [] b c hclt]

theorem play_oob {b : Board} {c : Nat} (p : Int) (h : b.length ≤ c) :
    play b c p = b := by
  unfold play
  exact List.set_eq_of_length_le h

theorem wf_play {b : Board} (c : Nat) (p : Int) (hw : wf b = true) :
    wf (play b c p) = true := by
  by_cases hlt : c < b.length
  · unfold wf at hw ⊢
    obtain ⟨h1, h2⟩ := (Bool.and_eq_true ..).mp hw
    rw [Bool.and_eq_true]
    refine ⟨by unfold play; rw [List.length_set]; exact h1, ?_⟩
    rw [List.all_eq_true]
    intro col hcol
    rcases List.mem_or_eq_of_mem_set hcol with h | h
    · exact (List.all_eq_true.mp h2) col h
    · subst h
      have := (List.all_eq_true.mp h2) (b.getD c []) (getD_mem hlt)
      rw [playCol_length]
      exact this
  · rw [play_oob p (by omega)]
    exact hw

theorem gravityB_play {b : Board} (c : Nat) (p : Int) (hg : gravityB b = true)
    (hp : p ≠ 0) : gravityB (play b c p) = true := by
  by_cases hlt : c < b.length
  · unfold gravityB at hg ⊢
    rw [List.all_eq_true]
    intro col hcol
    rcases List.mem_or_eq_of_mem_set hcol with h | h
    · exact (List.all_eq_true.mp hg) col h
    · subst h
      exact gravityCol_playCol p hp _ ((List.all_eq_true.mp hg) _ (getD_mem hlt))
  · rw [play_oob p (by omega)]
    exact hg

theorem boardAny_eq_false_of_round_zero {b : Board} (h : round_number b = 0) :
    boardAny b = false := by
  by_contra hne
  have htrue : boardAny b = true := by simpa using hne
  rw [boardAny, List.any_eq_true] at htrue
  obtain ⟨col, hcol, hv⟩ := htrue
  rw [List.any_eq_true] at hv
  obtain ⟨v, hvmem, hvne⟩ := hv
  have hpos : 0 < col.countP (fun v => v != 0) := List.countP_pos_iff.mpr ⟨v, hvmem, hvne⟩
  have hle : col.countP (fun v => v != 0) ≤ (b.map fun col => col.countP fun v => v != 0).sum :=
    List.single_le_sum (fun x _ => Nat.zero_le x) _ (List.mem_map_of_mem _ hcol)
  rw [round_number] at h
  omega

theorem boardAny_of_round_ne_zero {b : Board} (h : round_number b ≠ 0) :
    boardAny b = true := by
  by_contra hne
  have hfalse : boardAny b = false := by simpa using hne
  rw [boardAny, List.any_eq_false] at hfalse
  apply h
  rw [round_number]
  apply List.sum_eq_zero
  intro x hx
  rw [List.mem_map] at hx
  obtain ⟨col, hcol, rfl⟩ := hx
  rw [List.countP_eq_zero]
  intro v hv hvne
  exact hfalse col hcol (List.any_eq_true.mpr ⟨v, hv, hvne⟩)

theorem round_number_le {b : Board} (hw : wf b = true) :
    round_number b ≤ MAX_ROUNDS := by
  unfold wf at hw
  obtain ⟨h1, h2⟩ := (Bool.and_eq_true ..).mp hw
  have hlen : b.length = NUM_COLUMNS := by simpa using h1
  have hsum : (b.map fun col => col.countP fun v => v != 0).sum ≤
      (b.map fun col => col.length).sum := by
    apply List.sum_le_sum
    intro col _
    exact List.countP_le_length _
  have hrep : b.map (fun col => col.length) = List.replicate NUM_COLUMNS COLUMN_HEIGHT := by
    rw [List.eq_replicate_iff]
    refine ⟨by simpa using hlen, ?_⟩
    intro x hx
    rw [List.mem_map] at hx
    obtain ⟨col, hcol, rfl⟩ := hx
    simpa using (List.all_eq_true.mp h2) col hcol
  rw [hrep] at hsum
  simpa [round_number, MAX_ROUNDS, List.sum_replicate] using hsum

theorem winScore_pos {rn : Nat} (h : rn < MAX_ROUNDS) : 1 ≤ winScore rn := by
  unfold winScore
  unfold MAX_ROUNDS NUM_COLUMNS COLUMN_HEIGHT at h ⊢
  omega

theorem can_win_loop_no_win {player : Int} (hp : player ≠ 0) {b : Board} {r : Nat}
    (hw : wf b = true) (hg : gravityB b = true) :
    ∀ moves : List Nat, (∀ m ∈ moves, m ∈ valid_moves b) →
      (∀ m ∈ moves, four_in_a_row (play b m player) player = false) →
      can_win_loop player r moves b = ((none, none), b) := by
  intro moves
  induction moves with
  | nil => intro _ _; rfl
  | cons m ms ih =>
    intro hsub hnw
    have hm : m ∈ valid_moves b := hsub m (List.mem_cons_self m ms)
    simp only [can_win_loop]
    rw [hnw m (List.mem_cons_self m ms)]
    simp only [Bool.false_eq_true, if_false, truthy]
    rw [play_take_back hw hg hm hp]
    exact ih (fun x hx => hsub x (List.mem_cons_of_mem m hx))
      (fun x hx => hnw x (List.mem_cons_of_mem m hx))

theorem can_win_loop_first_win {player : Int} (hp : player ≠ 0) {b : Board} {r : Nat}
    (hw : wf b = true) (hg : gravityB b = true) (hws : winScore r ≠ 0) :
    ∀ moves : List Nat, (∀ m ∈ moves, m ∈ valid_moves b) →
      (∃ m ∈ moves, four_in_a_row (play b m player) player = true) →
      ∃ m0 ∈ moves, four_in_a_row (play b m0 player) player = true ∧
        can_win_loop player r moves b = ((some (winScore r), some m0), b) := by
  intro moves
  induction moves with
  | nil => intro _ hex; exact absurd hex (by simp)
  | cons m ms ih =>
    intro hsub hex
    have hm : m ∈ valid_moves b := hsub m (List.mem_cons_self m ms)
    by_cases hwm : four_in_a_row (play b m player) player = true
    · refine ⟨m, List.mem_cons_self m ms, hwm, ?_⟩
      simp only [can_win_loop]
      rw [hwm]
      simp only [if_true, truthy]
      rw [play_take_back hw hg hm hp]
      simp [hws]
    · have hwm' : four_in_a_row (play b m player) player = false := by
        simpa using hwm
      obtain ⟨m', hm', hwin'⟩ := hex
      have hm'ms : m' ∈ ms := by
        rcases List.mem_cons.mp hm' with rfl | h
        · rw [hwin'] at hwm'; cases hwm'
        · exact h
      obtain ⟨m0, hm0, hw0, heq⟩ :=
        ih (fun x hx => hsub x (List.mem_cons_of_mem m hx)) ⟨m', hm'ms, hwin'⟩
      refine ⟨m0, List.mem_cons_of_mem m hm0, hw0, ?_⟩
      simp only [can_win_loop]
      rw [hwm']
      simp only [Bool.false_eq_true, if_false, truthy]
      rw [play_take_back hw hg hm hp]
      exact heq

/-- Unfolding of `minimax` at positive fuel (the source body). -/
theorem minimax_succ (rand : Nat → Nat) (f k : Nat) (b : Board) (player : Int)
    (depth alpha beta max_depth : Int) :
    minimax rand (f + 1) k b player depth alpha beta max_depth =
      (if round_number b = MAX_ROUNDS then ((0, none), b, k)
       else
        let moves := valid_moves b
        let cw := can_win_next_move b player moves (round_number b)
        if truthy cw.1.1 then ((cw.1.1.getD 0, cw.1.2), cw.2, k)
        else
          let max_score : Int := ((MAX_ROUNDS : Int) - ((round_number b : Int) + 1)) / 2
          let beta' := if beta > max_score then max_score else beta
          if alpha ≥ beta' then ((beta', none), cw.2, k)
          else if depth > max_depth then
            let r := mc_simulation rand k cw.2 player
            (r.1, cw.2, r.2)
          else mmLoop rand f k SEARCH_ORDER moves cw.2 player depth alpha beta' none) := by
  rw [minimax]

theorem can_win_loop_board {player : Int} (hp : player ≠ 0) {b : Board} {r : Nat}
    (hw : wf b = true) (hg : gravityB b = true) :
    ∀ moves : List Nat, (∀ m ∈ moves, m ∈ valid_moves b) →
      (can_win_loop player r moves b).2 = b := by
  intro moves
  induction moves with
  | nil => intro _; rfl
  | cons m ms ih =>
    intro hsub
    have hm : m ∈ valid_moves b := hsub m (List.mem_cons_self m ms)
    simp only [can_win_loop]
    rw [play_take_back hw hg hm hp]
    split_ifs <;>
      first
        | rfl
        | exact ih (fun x hx => hsub x (List.mem_cons_of_mem m hx))

theorem mmLoop_board_restored (rand : Nat → Nat) (fuel : Nat)
    (ih : ∀ (k : Nat) (b : Board) (player : Int) (depth alpha beta max_depth : Int),
      wf b = true → gravityB b = true → player ≠ 0 →
      (minimax rand fuel k b player depth alpha beta max_depth).2.1 = b) :
    ∀ (order : List Nat) (k : Nat) (moves : List Nat) (b : Board) (player : Int)
      (depth alpha beta : Int) (best_move : Option Nat),
      wf b = true → gravityB b = true → player ≠ 0 →
      (∀ m ∈ moves, m ∈ valid_moves b) →
      (mmLoop rand fuel k order moves b player depth alpha beta best_move).2.1 = b := by
  intro order
  induction order with
  | nil =>
    intro k moves b player depth alpha beta best_move _ _ _ _
    rw [mmLoop]
  | cons m rest ihl =>
    intro k moves b player depth alpha beta best_move hw hg hp hmv
    rw [mmLoop]
    by_cases hmem : m ∈ moves
    · rw [if_pos hmem]
      simp only []
      have hb1 : (minimax rand fuel k (play b m player) (-player) (depth + 1)
          (-beta) (-alpha) MAX_DEPTH).2.1 = play b m player :=
        ih k (play b m player) (-player) (depth + 1) (-beta) (-alpha) MAX_DEPTH
          (wf_play m player hw) (gravityB_play m player hg hp) (neg_ne_zero.mpr hp)
      rw [hb1, play_take_back hw hg (hmv m hmem) hp]
      split_ifs
      · rfl
      · exact ihl _ _ _ _ _ _ _ _ hw hg hp hmv
      · exact ihl _ _ _ _ _ _ _ _ hw hg hp hmv
    · rw [if_neg hmem]
      exact ihl _ _ _ _ _ _ _ _ hw hg hp hmv

theorem minimax_board_restored (rand : Nat → Nat) :
    ∀ (fuel k : Nat) (b : Board) (player : Int) (depth alpha beta max_depth : Int),
      wf b = true → gravityB b = true → player ≠ 0 →
      (minimax rand fuel k b player depth alpha beta max_depth).2.1 = b := by
  intro fuel
  induction fuel with
  | zero =>
    intro k b player depth alpha beta max_depth _ _ _
    rw [minimax]
  | succ f ihf =>
    intro k b player depth alpha beta max_depth hw hg hp
    rw [minimax_succ]
    have hcw : (can_win_next_move b player (valid_moves b) (round_number b)).2 = b :=
      can_win_loop_board (r := round_number b) hp hw hg (valid_moves b) (fun x hx => hx)
    simp only []
    rw [hcw]
    split_ifs <;>
      first
        | rfl
        | exact mmLoop_board_restored rand f
            (fun k' b' p' d' a' e' m' hw' hg' hp' => ihf k' b' p' d' a' e' m' hw' hg' hp')
            SEARCH_ORDER k (valid_moves b) b player depth alpha _ none hw hg hp
            (fun x hx => hx)

theorem cell_ne_of_no_moves {b : Board} (hvm : valid_moves b = []) {n : Nat}
    (hn : n < NUM_COLUMNS) : cell b n (COLUMN_HEIGHT - 1) ≠ 0 := by
  intro h0
  have hmem : n ∈ valid_moves b := mem_valid_moves.mpr ⟨hn, h0⟩
  rw [hvm] at hmem
  simp at hmem

theorem boardAny_of_no_moves {b : Board} (hw : wf b = true)
    (hvm : valid_moves b = []) : boardAny b = true := by
  have h0 := cell_ne_of_no_moves hvm (show 0 < NUM_COLUMNS by decide)
  rw [boardAny, List.any_eq_true]
  have hlt : 0 < b.length := by rw [wf_length hw]; decide
  refine ⟨b.getD 0 [], getD_mem hlt, ?_⟩
  rw [List.any_eq_true]
  have hcl : (b.getD 0 []).length = COLUMN_HEIGHT := wf_col_length hw (getD_mem hlt)
  have h5 : COLUMN_HEIGHT - 1 < (b.getD 0 []).length := by rw [hcl]; decide
  refine ⟨(b.getD 0 []).getD (COLUMN_HEIGHT - 1) 0, ?_, ?_⟩
  · rw [List.getD_eq_getElem _ _ h5]
    exact List.getElem_mem h5
  · exact bne_iff_ne.mpr h0

theorem length_le_sum_of_one_le : ∀ l : List Nat, (∀ x ∈ l, 1 ≤ x) → l.length ≤ l.sum
  | [], _ => le_refl 0
  | x :: xs, h => by
    simp only [List.length_cons, List.sum_cons]
    have h1 := length_le_sum_of_one_le xs (fun y hy => h y (List.mem_cons_of_mem x hy))
    have hx := h x (List.mem_cons_self x xs)
    omega

theorem round_ge_of_no_moves {b : Board} (hw : wf b = true)
    (hvm : valid_moves b = []) : NUM_COLUMNS ≤ round_number b := by
  rw [round_number]
  have hlen : (b.map fun col => col.countP fun v => v != 0).length = NUM_COLUMNS := by
    rw [List.length_map, wf_length hw]
  rw [← hlen]
  apply length_le_sum_of_one_le
  intro x hx
  rw [List.mem_map] at hx
  obtain ⟨col, hcol, rfl⟩ := hx
  obtain ⟨i, hi, hbi⟩ := List.mem_iff_getElem.mp hcol
  have hieq : b.getD i [] = col := by rw [List.getD_eq_getElem _ _ hi]; exact hbi
  have hine : cell b i (COLUMN_HEIGHT - 1) ≠ 0 :=
    cell_ne_of_no_moves hvm (by rw [← wf_length hw]; exact hi)
  rw [cell, hieq] at hine
  have hcl : col.length = COLUMN_HEIGHT := wf_col_length hw hcol
  have h5 : COLUMN_HEIGHT - 1 < col.length := by rw [hcl]; decide
  have hmem : col.getD (COLUMN_HEIGHT - 1) 0 ∈ col := by
    rw [List.getD_eq_getElem _ _ h5]
    exact List.getElem_mem h5
  have hone : 0 < List.countP (fun v => v != 0) col := by
    apply List.countP_pos_iff.mpr
    refine ⟨col.getD (COLUMN_HEIGHT - 1) 0, hmem, ?_⟩
    simpa using hine
  omega

theorem iterate1_no_children (rand : Nat → Nat) (t : Tree) (k : Nat)
    (hc : t.childs = []) (hn : t.next_moves = []) :
    (iterate1 rand t k).1.childs = [] ∧ (iterate1 rand t k).1.next_moves = [] := by
  cases t with
  | mk b p mv v w childs nms =>
    simp only [Tree.childs, Tree.next_moves] at hc hn
    subst hc
    subst hn
    rw [iterate1]
    simp [Tree.childs, Tree.next_moves]

theorem MCTSloop_no_children (rand : Nat → Nat) :
    ∀ (n : Nat) (t : Tree) (k : Nat), t.childs = [] → t.next_moves = [] →
      (MCTSloop rand n t k).1.childs = []
  | 0, _, _, hc, _ => hc
  | n + 1, t, k, hc, hn => by
    simp only [MCTSloop]
    obtain ⟨hc', hn'⟩ := iterate1_no_children rand t k hc hn
    exact MCTSloop_no_children rand n _ _ hc' hn'

theorem MCTS_eq_none (rand : Nat → Nat) {b : Board} (player : Int) (n : Nat)
    (hvm : valid_moves b = []) : MCTS rand b player n = none := by
  unfold MCTS MCTSTree
  have h := MCTSloop_no_children rand n (.mk b (-player) none 0 0 [] (valid_moves b)) 0
    rfl (by simp only [Tree.next_moves]; exact hvm)
  rw [h]
  rfl

theorem mmLoop_nil_moves (rand : Nat → Nat) (fuel : Nat) :
    ∀ (order : List Nat) (k : Nat) (b : Board) (player : Int)
      (depth alpha beta : Int) (best_move : Option Nat),
      mmLoop rand fuel k order [] b player depth alpha beta best_move =
        ((alpha, best_move), b, k)
  | [], _, _, _, _, _, _, _ => by rw [mmLoop]
  | m :: rest, k, b, player, depth, alpha, beta, best_move => by
    rw [mmLoop, if_neg (by simp)]
    exact mmLoop_nil_moves rand fuel rest k b player depth alpha beta best_move

theorem minimax_no_moves (rand : Nat → Nat) (f k : Nat) (b : Board) (player : Int)
    (alpha beta : Int) (hvm : valid_moves b = []) :
    (minimax rand (f + 1) k b player 1 alpha beta MAX_DEPTH).1.2 = none ∧
    (minimax rand (f + 1) k b player 1 alpha beta MAX_DEPTH).2.1 = b := by
  rw [minimax_succ]
  by_cases h1 : round_number b = MAX_ROUNDS
  · rw [if_pos h1]
    exact ⟨rfl, rfl⟩
  · rw [if_neg h1]
    simp only []
    rw [hvm]
    simp only [can_win_next_move, can_win_loop, truthy]
    rw [if_neg (by simp : ¬(false = true)),
      if_neg (by decide : ¬((1 : Int) > MAX_DEPTH)), mmLoop_nil_moves]
    split_ifs <;> exact ⟨rfl, rfl⟩

theorem reward_nonneg (winner player : Int) : 0 ≤ reward winner player := by
  unfold reward
  split_ifs <;> norm_num

theorem reward_le_one (winner player : Int) : reward winner player ≤ 1 := by
  unfold reward
  split_ifs <;> norm_num

theorem wins_step_nonneg {w : ℚ} (h : 0 ≤ w) (winner player : Int) :
    0 ≤ w + reward winner player :=
  add_nonneg h (reward_nonneg winner player)

theorem wins_step_le {w : ℚ} {v : Nat} (h : w ≤ (v : ℚ)) (winner player : Int) :
    w + reward winner player ≤ ((v + 1 : Nat) : ℚ) := by
  have hr := reward_le_one winner player
  push_cast
  linarith

theorem treeInv_childs {t : Tree} (h : TreeInv t) :
    ∀ c ∈ t.childs, 1 ≤ c.num_visits ∧ TreeInv c := by
  cases h with
  | mk b p mv v w childs nms h0 h1 h2 h3 =>
    intro c hc
    exact ⟨h2 c hc, h3 c hc⟩

theorem iterate1_treeInv (rand : Nat → Nat) :
    ∀ (n : Nat) (t : Tree), sizeOf t ≤ n → ∀ k : Nat, TreeInv t →
      TreeInv (iterate1 rand t k).1 ∧
        (iterate1 rand t k).1.num_visits = t.num_visits + 1 := by
  intro n
  induction n with
  | zero =>
    intro t ht
    cases t with
    | mk b p mv v w childs nms =>
      simp only [Tree.mk.sizeOf_spec] at ht
      omega
  | succ n ihn =>
    intro t ht k hinv
    cases t with
    | mk b p mv v w childs nms =>
      have hbounds : 0 ≤ w ∧ w ≤ (v : ℚ) := by
        cases hinv with
        | mk _ _ _ _ _ _ _ h0 h1 _ _ => exact ⟨h0, h1⟩
      have hch := treeInv_childs hinv
      simp only [Tree.childs] at hch
      rw [iterate1]
      by_cases h : 0 < childs.length ∧ nms = []
      · rw [dif_pos h]
        simp only []
        have hcmem : childs.get ⟨rand k % childs.length, Nat.mod_lt _ h.1⟩ ∈ childs :=
          childs.get_mem _ _
        have hsz : sizeOf (childs.get ⟨rand k % childs.length, Nat.mod_lt _ h.1⟩) ≤ n := by
          have h1 := List.sizeOf_lt_of_mem hcmem
          simp only [Tree.mk.sizeOf_spec] at ht
          omega
        obtain ⟨hinvc, hvisc⟩ := ihn _ hsz (k + 1) ((hch _ hcmem).2)
        constructor
        · apply TreeInv.mk
          · exact wins_step_nonneg hbounds.1 _ _
          · exact wins_step_le hbounds.2 _ _
          · intro c hcm
            rcases List.mem_or_eq_of_mem_set hcm with hm | hm
            · exact (hch c hm).1
            · rw [hm, hvisc]
              omega
          · intro c hcm
            rcases List.mem_or_eq_of_mem_set hcm with hm | hm
            · exact (hch c hm).2
            · rw [hm]
              exact hinvc
        · simp [Tree.num_visits]
      · rw [dif_neg h]
        by_cases h2 : nms ≠ []
        · rw [dif_pos h2]
          simp only []
          constructor
          · apply TreeInv.mk
            · exact wins_step_nonneg hbounds.1 _ _
            · exact wins_step_le hbounds.2 _ _
            · intro c hcm
              rcases List.mem_append.mp hcm with hm | hm
              · exact (hch c hm).1
              · rw [List.mem_singleton.mp hm]
                simp [Tree.num_visits]
            · intro c hcm
              rcases List.mem_append.mp hcm with hm | hm
              · exact (hch c hm).2
              · rw [List.mem_singleton.mp hm]
                apply TreeInv.mk
                · exact reward_nonneg _ _
                · push_cast
                  exact reward_le_one _ _
                · intro c' hc'
                  simp at hc'
                · intro c' hc'
                  simp at hc'
          · simp [Tree.num_visits]
        · rw [dif_neg h2]
          simp only []
          refine ⟨?_, by simp [Tree.num_visits]⟩
          apply TreeInv.mk
          · exact wins_step_nonneg hbounds.1 _ _
          · exact wins_step_le hbounds.2 _ _
          · exact fun c hc => (hch c hc).1
          · exact fun c hc => (hch c hc).2

theorem MCTSloop_treeInv (rand : Nat → Nat) :
    ∀ (n : Nat) (t : Tree) (k : Nat), TreeInv t → TreeInv (MCTSloop rand n t k).1
  | 0, _, _, h => h
  | n + 1, t, k, h => by
    simp only [MCTSloop]
    exact MCTSloop_treeInv rand n _ _ (iterate1_treeInv rand (sizeOf t) t (le_refl _) k h).1

theorem mctsTree_inv (rand : Nat → Nat) (b : Board) (player : Int) (n : Nat) :
    TreeInv (MCTSTree rand b player n).1 := by
  unfold MCTSTree
  apply MCTSloop_treeInv
  apply TreeInv.mk
  · exact le_refl 0
  · norm_num
  · intro c hc
    simp at hc
  · intro c hc
    simp at hc

theorem iterate1_move_eq (rand : Nat → Nat) (t : Tree) (k : Nat) :
    (iterate1 rand t k).1.move = t.move := by
  cases t with
  | mk b p mv v w childs nms =>
    rw [iterate1]
    by_cases h : 0 < childs.length ∧ nms = []
    · rw [dif_pos h]
      rfl
    · rw [dif_neg h]
      by_cases h2 : nms ≠ []
      · rw [dif_pos h2]
        rfl
      · rw [dif_neg h2]
        rfl

theorem iterate1_rootInv (rand : Nat → Nat) (S : List Nat) (t : Tree) (k : Nat)
    (h : RootInv S t) : RootInv S (iterate1 rand t k).1 := by
  cases t with
  | mk b p mv v w childs nms =>
    obtain ⟨hc, hn⟩ := h
    simp only [Tree.childs, Tree.next_moves] at hc hn
    rw [iterate1]
    by_cases h1 : 0 < childs.length ∧ nms = []
    · rw [dif_pos h1]
      constructor
      · intro c hcm
        simp only [Tree.childs] at hcm
        rcases List.mem_or_eq_of_mem_set hcm with hm | hm
        · exact hc c hm
        · subst hm
          obtain ⟨m, hmS, hmv⟩ := hc _ (childs.get_mem _ _)
          refine ⟨m, hmS, ?_⟩
          rw [iterate1_move_eq, hmv]
      · intro m hm
        simp only [Tree.next_moves] at hm
        exact hn m hm
    · rw [dif_neg h1]
      by_cases h2 : nms ≠ []
      · rw [dif_pos h2]
        constructor
        · intro c hcm
          simp only [Tree.childs] at hcm
          rcases List.mem_append.mp hcm with hm | hm
          · exact hc c hm
          · rw [List.mem_singleton.mp hm]
            exact ⟨nms.get ⟨rand k % nms.length, Nat.mod_lt _ (List.length_pos.mpr h2)⟩,
              hn _ (nms.get_mem _ _), rfl⟩
        · intro m hm
          simp only [Tree.next_moves] at hm
          exact hn m (List.erase_subset _ _ hm)
      · rw [dif_neg h2]
        exact ⟨hc, hn⟩

theorem iterate1_childs_len (rand : Nat → Nat) (t : Tree) (k : Nat) :
    t.childs.length ≤ (iterate1 rand t k).1.childs.length := by
  cases t with
  | mk b p mv v w childs nms =>
    rw [iterate1]
    by_cases h : 0 < childs.length ∧ nms = []
    · rw [dif_pos h]
      simp [Tree.childs]
    · rw [dif_neg h]
      by_cases h2 : nms ≠ []
      · rw [dif_pos h2]
        simp [Tree.childs]
      · rw [dif_neg h2]
        exact Nat.le_refl _

theorem iterate1_expands (rand : Nat → Nat) (t : Tree) (k : Nat)
    (hc : t.childs = []) (hn : t.next_moves ≠ []) :
    (iterate1 rand t k).1.childs ≠ [] := by
  cases t with
  | mk b p mv v w childs nms =>
    simp only [Tree.childs, Tree.next_moves] at hc hn
    subst hc
    rw [iterate1]
    rw [dif_neg (by simp)]
    rw [dif_pos hn]
    simp [Tree.childs]

theorem MCTSloop_rootInv (rand : Nat → Nat) (S : List Nat) :
    ∀ (n : Nat) (t : Tree) (k : Nat), RootInv S t → RootInv S (MCTSloop rand n t k).1
  | 0, _, _, h => h
  | n + 1, t, k, h => by
    simp only [MCTSloop]
    exact MCTSloop_rootInv rand S n _ _ (iterate1_rootInv rand S t k h)

theorem MCTSloop_childs_ne (rand : Nat → Nat) :
    ∀ (n : Nat) (t : Tree) (k : Nat), t.childs ≠ [] → (MCTSloop rand n t k).1.childs ≠ []
  | 0, _, _, h => h
  | n + 1, t, k, h => by
    simp only [MCTSloop]
    apply MCTSloop_childs_ne rand n
    have hlen := iterate1_childs_len rand t k
    intro hnil
    simp only [hnil, List.length_nil, Nat.le_zero] at hlen
    exact h (List.length_eq_zero.mp hlen)

theorem foldl_max_mem {α : Type} (f : α → ℚ) :
    ∀ (xs : List α) (x : α),
      xs.foldl (fun acc y => if f y > f acc then y else acc) x ∈ x :: xs
  | [], _ => by simp
  | y :: ys, x => by
    simp only [List.foldl_cons]
    have hres := foldl_max_mem f ys (if f y > f x then y else x)
    rcases List.mem_cons.mp hres with hm | hm
    · rw [hm]
      split_ifs <;> simp
    · exact List.mem_cons_of_mem _ (List.mem_cons_of_mem _ hm)

theorem pyMax_mem {α : Type} (f : α → ℚ) :
    ∀ {xs : List α} {x : α}, pyMax f xs = some x → x ∈ xs
  | [], x, h => by simp [pyMax] at h
  | y :: ys, x, h => by
    simp only [pyMax, Option.some.injEq] at h
    rw [← h]
    exact foldl_max_mem f ys y

theorem pyMax_nonempty {α : Type} (f : α → ℚ) {xs : List α} (h : xs ≠ []) :
    ∃ x, pyMax f xs = some x := by
  cases xs with
  | nil => exact absurd rfl h
  | cons y ys => exact ⟨_, rfl⟩

/-! ## Claims -/

/-- C7: for every board satisfying the gravity invariant, every non-full
column `c` and every player `p` (a nonzero flag), `play` followed by
`take_back` on `c` restores the exact prior board. -/
theorem c7_play_take_back_roundtrip {b : Board} {c : Nat} {p : Int}
    (hw : wf b = true) (hg : gravityB b = true) (hc : c ∈ valid_moves b)
    (hp : p ≠ 0) : take_back (play b c p) c = b :=
  play_take_back hw hg hc hp

/-- Witness for C7: the round trip at a concrete board, column and player. -/
theorem c7_witness : take_back (play twoDiscBoard 3 1) 3 = twoDiscBoard :=
  c7_play_take_back_roundtrip (by decide) (by decide) (by decide) (by decide)

/-- C1 counterexample: `fullWinBoard` is full AND contains a four-in-a-row
for player 1, yet `terminal_state` reports the draw (`some 0`), not the win —
fullness takes precedence in the source, contradicting the claim. -/
theorem c1_counterexample :
    round_number fullWinBoard = MAX_ROUNDS ∧ four_in_a_row fullWinBoard 1 = true ∧
      terminal_state fullWinBoard = some 0 ∧ terminal_state fullWinBoard ≠ some 1 := by
  decide

/-- C1 amended: `terminal_state` returns the draw exactly when the board is
completely full — regardless of any four-in-a-row, since fullness is checked
first. -/
theorem c1_terminal_draw_iff_full (b : Board) :
    terminal_state b = some 0 ↔ round_number b = MAX_ROUNDS := by
  unfold terminal_state
  split_ifs with h1 h2 h3 <;> simp_all

/-- C2 amended: in `_mc`, the first random move of the playout is made by
`player` itself (the source negates twice before the first `play`), not by
the opponent; this holds for every oracle and every board with a legal
move. -/
theorem c2_mc_first_mover (rand : Nat → Nat) (fuel : Nat) (b : Board)
    (player : Int) (hvm : valid_moves b ≠ []) (hf : 1 ≤ fuel) :
    ((_mc rand fuel b player).2.1.head?).map Prod.snd = some player := by
  obtain ⟨f, rfl⟩ : ∃ f, fuel = f + 1 := ⟨fuel - 1, by omega⟩
  unfold _mc mcLoop
  rw [if_neg hvm]
  simp only [neg_neg]
  split <;> rfl

/-- Witness for C2's amended theorem at a concrete input. -/
theorem c2_witness :
    ((_mc (fun _ => 0) 1 emptyBoard 1).2.1.head?).map Prod.snd = some 1 :=
  c2_mc_first_mover (fun _ => 0) 1 emptyBoard 1 (by decide) (by decide)

/-- C2 counterexample: `nearFullBoard` is non-terminal with a legal move,
`player = 1`, yet the first (and only) move of the `_mc` playout is made by
player `1` itself, not by `-player = -1` as the claim states. -/
theorem c2_counterexample :
    valid_moves nearFullBoard ≠ [] ∧ terminal_state nearFullBoard = none ∧
      ((_mc (fun _ => 0) 2 nearFullBoard 1).2.1.head?).map Prod.snd = some 1 ∧
      ((_mc (fun _ => 0) 2 nearFullBoard 1).2.1.head?).map Prod.snd ≠ some (-1) := by
  decide

/-- C6: `choose_move` plays and returns column 3 on an empty board and on a
one-disc board, and on a two-disc board plays and returns a column among
{2, 3, 4} — for every player, every strategy selector and every oracle. -/
theorem c6_opening_moves (rand : Nat → Nat) (b : Board) (player v : Int) :
    (round_number b = 0 → choose_move rand b player v = .ok (some 3, play b 3 player)) ∧
    (round_number b = 1 → choose_move rand b player v = .ok (some 3, play b 3 player)) ∧
    (round_number b = 2 → ∃ m, (m = 2 ∨ m = 3 ∨ m = 4) ∧
      choose_move rand b player v = .ok (some m, play b m player)) := by
  refine ⟨?_, ?_, ?_⟩
  · intro h0
    unfold choose_move
    rw [if_pos (Or.inl (boardAny_eq_false_of_round_zero h0))]
  · intro h1
    unfold choose_move
    rw [if_pos (Or.inr h1)]
  · intro h2
    have hba := boardAny_of_round_ne_zero (b := b) (by simp [h2])
    unfold choose_move
    rw [if_neg (by intro hcon; rcases hcon with hc | hc <;> simp_all), if_pos h2]
    refine ⟨[2, 3, 4].getD (rand 0 % 3) 0, ?_, rfl⟩
    have h3 : rand 0 % 3 < 3 := Nat.mod_lt _ (by decide)
    rcases (by omega : rand 0 % 3 = 0 ∨ rand 0 % 3 = 1 ∨ rand 0 % 3 = 2) with h | h | h <;>
      rw [h] <;> simp

/-- C4: on a non-full gravity board where `player` can complete a
four-in-a-row with some legal move, `minimax` returns such a winning move
with the exact score `winScore (round_number b)`, for every `alpha`, `beta`,
`depth` and `max_depth`, leaving the board unchanged. -/
theorem c4_minimax_immediate_win (rand : Nat → Nat) (fuel k : Nat) (b : Board)
    (player : Int) (depth alpha beta max_depth : Int) (hw : wf b = true)
    (hg : gravityB b = true) (hp : player ≠ 0)
    (hnf : round_number b ≠ MAX_ROUNDS)
    (hwin : ∃ m ∈ valid_moves b, four_in_a_row (play b m player) player = true)
    (hf : 1 ≤ fuel) :
    ∃ m ∈ valid_moves b, four_in_a_row (play b m player) player = true ∧
      minimax rand fuel k b player depth alpha beta max_depth =
        ((winScore (round_number b), some m), b, k) := by
  obtain ⟨f, rfl⟩ : ∃ f, fuel = f + 1 := ⟨fuel - 1, by omega⟩
  have hlt : round_number b < MAX_ROUNDS := lt_of_le_of_ne (round_number_le hw) hnf
  have hws : winScore (round_number b) ≠ 0 := by
    have := winScore_pos hlt; omega
  obtain ⟨m0, hm0, hw0, heq⟩ :=
    can_win_loop_first_win hp hw hg hws (valid_moves b) (fun x hx => hx) hwin
  refine ⟨m0, hm0, hw0, ?_⟩
  rw [minimax_succ, if_neg hnf]
  simp only []
  rw [show can_win_next_move b player (valid_moves b) (round_number b) =
    ((some (winScore (round_number b)), some m0), b) from heq]
  simp [truthy, hws]

/-- Witness for C4 at a concrete input: `winInOneBoard`, player 1. -/
theorem c4_witness :
    ∃ m ∈ valid_moves winInOneBoard, four_in_a_row (play winInOneBoard m 1) 1 = true ∧
      minimax (fun _ => 0) 1 0 winInOneBoard 1 1 (-1000) 1000 3 =
        ((winScore (round_number winInOneBoard), some m), winInOneBoard, 0) :=
  c4_minimax_immediate_win (fun _ => 0) 1 0 winInOneBoard 1 1 (-1000) 1000 3
    (by decide) (by decide) (by decide) (by decide) (by decide) (by decide)

/-- C5: on a non-full gravity board where the current player cannot win on
this ply, `minimax` clips `beta` to `(MAX_ROUNDS - (round_number + 1)) / 2`
and, when `alpha` is at least the clipped bound, returns
`(clipped beta, none)` at once, leaving the board unchanged. -/
theorem c5_minimax_beta_prune (rand : Nat → Nat) (fuel k : Nat) (b : Board)
    (player : Int) (depth alpha beta max_depth : Int) (hw : wf b = true)
    (hg : gravityB b = true) (hp : player ≠ 0)
    (hnf : round_number b ≠ MAX_ROUNDS)
    (hnw : ∀ m ∈ valid_moves b, four_in_a_row (play b m player) player = false)
    (hab : min beta (((MAX_ROUNDS : Int) - ((round_number b : Int) + 1)) / 2) ≤ alpha)
    (hf : 1 ≤ fuel) :
    minimax rand fuel k b player depth alpha beta max_depth =
      ((min beta (((MAX_ROUNDS : Int) - ((round_number b : Int) + 1)) / 2), none), b, k) := by
  obtain ⟨f, rfl⟩ : ∃ f, fuel = f + 1 := ⟨fuel - 1, by omega⟩
  have heq := can_win_loop_no_win (r := round_number b) hp hw hg
    (valid_moves b) (fun x hx => hx) hnw
  rw [minimax_succ, if_neg hnf]
  simp only []
  rw [show can_win_next_move b player (valid_moves b) (round_number b) =
    ((none, none), b) from heq]
  simp only [truthy, Bool.false_eq_true, if_false]
  rw [show (if beta > ((MAX_ROUNDS : Int) - ((round_number b : Int) + 1)) / 2
      then ((MAX_ROUNDS : Int) - ((round_number b : Int) + 1)) / 2 else beta) =
    min beta (((MAX_ROUNDS : Int) - ((round_number b : Int) + 1)) / 2) from by
      split_ifs <;> omega]
  rw [if_pos hab]

/-- Witness for C5 at a concrete input: the empty board with
`alpha = 20 ≥ clipped beta = 20`. -/
theorem c5_witness :
    minimax (fun _ => 0) 1 0 emptyBoard 1 1 20 1000 3 =
      ((min 1000 (((MAX_ROUNDS : Int) - ((round_number emptyBoard : Int) + 1)) / 2), none),
        emptyBoard, 0) :=
  c5_minimax_beta_prune (fun _ => 0) 1 0 emptyBoard 1 1 20 1000 3
    (by decide) (by decide) (by decide) (by decide) (by decide) (by decide) (by decide)

/-- C3: on a board with no legal move, `choose_move` with the minimax
strategy returns the no-move (draw) signal with the board unchanged, but with
the MCTS strategy it raises (`ValueError` from `max` over the empty root
child list) instead of returning the signal. -/
theorem c3_choose_move_full_board (rand : Nat → Nat) (b : Board) (player : Int)
    (hw : wf b = true) (hvm : valid_moves b = []) :
    choose_move rand b player 1 = .error () ∧
    ∀ v : Int, v ≠ 1 → choose_move rand b player v = .ok (none, b) := by
  have hba := boardAny_of_no_moves hw hvm
  have hr7 : (7 : Nat) ≤ round_number b := by
    simpa [NUM_COLUMNS] using round_ge_of_no_moves hw hvm
  have hcond : ¬(boardAny b = false ∨ round_number b = 1) := by
    intro hc
    rcases hc with hc | hc
    · simp [hba] at hc
    · omega
  constructor
  · unfold choose_move
    rw [if_neg hcond, if_neg (by omega : ¬round_number b = 2), if_pos rfl,
      MCTS_eq_none rand player NUM_ITERATIONS hvm]
  · intro v hv
    unfold choose_move
    rw [if_neg hcond, if_neg (by omega : ¬round_number b = 2), if_neg hv]
    simp only []
    have hfe : CHOOSE_FUEL = 4 + 1 := rfl
    rw [hfe]
    obtain ⟨h1, h2⟩ := minimax_no_moves rand 4 0 b player (-1000) 1000 hvm
    rw [h1, h2]

/-- Witness for C3: the concrete full draw board with both strategies. -/
theorem c3_witness :
    choose_move (fun _ => 0) fullDrawBoard 1 1 = .error () ∧
      choose_move (fun _ => 0) fullDrawBoard 1 2 = .ok (none, fullDrawBoard) :=
  ⟨(c3_choose_move_full_board (fun _ => 0) fullDrawBoard 1 (by decide) (by decide)).1,
   (c3_choose_move_full_board (fun _ => 0) fullDrawBoard 1 (by decide) (by decide)).2
     2 (by decide)⟩

/-- C9: every call to `minimax` returns with the board exactly as it was
passed in — each `play` in the move loop is matched by a `take_back` on
every return path, including the beta-cutoff early return — for every
gravity board, nonzero player, fuel, oracle and search parameters. -/
theorem c9_minimax_preserves_board (rand : Nat → Nat) (fuel k : Nat) (b : Board)
    (player : Int) (depth alpha beta max_depth : Int) (hw : wf b = true)
    (hg : gravityB b = true) (hp : player ≠ 0) :
    (minimax rand fuel k b player depth alpha beta max_depth).2.1 = b :=
  minimax_board_restored rand fuel k b player depth alpha beta max_depth hw hg hp

/-- Witness for C9 at a concrete input (a full two-level search from
`winInOneBoard` for the opponent). -/
theorem c9_witness :
    (minimax (fun _ => 0) 2 0 winInOneBoard (-1) 1 (-1000) 1000 3).2.1 = winInOneBoard :=
  c9_minimax_preserves_board (fun _ => 0) 2 0 winInOneBoard (-1) 1 (-1000) 1000 3
    (by decide) (by decide) (by decide)

/-- Witness for C6: the three opening scenarios at concrete boards. -/
theorem c6_witness :
    choose_move (fun _ => 0) emptyBoard 1 1 = .ok (some 3, play emptyBoard 3 1) ∧
    choose_move (fun _ => 0) oneDiscBoard (-1) 2 = .ok (some 3, play oneDiscBoard 3 (-1)) ∧
    ∃ m, (m = 2 ∨ m = 3 ∨ m = 4) ∧
      choose_move (fun _ => 0) twoDiscBoard 1 2 = .ok (some m, play twoDiscBoard m 1) :=
  ⟨(c6_opening_moves (fun _ => 0) emptyBoard 1 1).1 (by decide),
   (c6_opening_moves (fun _ => 0) oneDiscBoard (-1) 2).2.1 (by decide),
   (c6_opening_moves (fun _ => 0) twoDiscBoard 1 2).2.2 (by decide)⟩

/-- C10: after every completed MCTS run (any iteration count, board, player
and oracle), every node of the search tree satisfies
`0 ≤ num_wins ≤ num_visits` and every expanded child has `num_visits ≥ 1`,
so the `wins/visits` ratios of UCB1 selection and of the final move choice
never divide by zero. -/
theorem c10_mcts_tree_invariant (rand : Nat → Nat) (b : Board) (player : Int)
    (n : Nat) : TreeInv (MCTSTree rand b player n).1 :=
  mctsTree_inv rand b player n

/-- C8: on every board with at least one legal move and any iteration budget
of at least 1, `MCTS` returns (without error) a column that is a legal move
of the input board, and every root child it may divide by has been visited. -/
theorem c8_mcts_legal_move (rand : Nat → Nat) (b : Board) (player : Int) (n : Nat)
    (hvm : valid_moves b ≠ []) (hn : 1 ≤ n) :
    (∀ c ∈ (MCTSTree rand b player n).1.childs, 1 ≤ c.num_visits) ∧
    ∃ m, MCTS rand b player n = some m ∧ m ∈ valid_moves b := by
  constructor
  · intro c hc
    exact ((treeInv_childs (mctsTree_inv rand b player n)) c hc).1
  · obtain ⟨n', rfl⟩ : ∃ n', n = n' + 1 := ⟨n - 1, by omega⟩
    have hroot : RootInv (valid_moves b)
        (Tree.mk b (-player) none 0 0 [] (valid_moves b)) := by
      constructor
      · intro c hc
        simp [Tree.childs] at hc
      · exact fun m hm => hm
    have hfin_inv : RootInv (valid_moves b) (MCTSTree rand b player (n' + 1)).1 := by
      unfold MCTSTree
      exact MCTSloop_rootInv rand (valid_moves b) (n' + 1) _ 0 hroot
    have hfin_ne : (MCTSTree rand b player (n' + 1)).1.childs ≠ [] := by
      unfold MCTSTree
      simp only [MCTSloop]
      apply MCTSloop_childs_ne
      exact iterate1_expands rand _ 0 rfl hvm
    unfold MCTS
    obtain ⟨best, hbest⟩ :=
      pyMax_nonempty (fun c : Tree => c.num_wins / (c.num_visits : ℚ)) hfin_ne
    rw [hbest]
    obtain ⟨m, hmS, hmv⟩ := hfin_inv.1 best (pyMax_mem _ hbest)
    exact ⟨m, hmv, hmS⟩

/-- Witness for C8: the empty board with a single-iteration budget. -/
theorem c8_witness :
    (∀ c ∈ (MCTSTree (fun _ => 0) emptyBoard 1 1).1.childs, 1 ≤ c.num_visits) ∧
    ∃ m, MCTS (fun _ => 0) emptyBoard 1 1 = some m ∧ m ∈ valid_moves emptyBoard :=
  c8_mcts_legal_move (fun _ => 0) emptyBoard 1 1 (by decide) (by decide)

end Connect4
